import Mathlib

/-!
Verification of the fluid-glob matching-and-pruning engine.

The definitions below are a shallow embedding of the functions in the
repository source (`gpii.glob.*`).  Strings are modelled with Lean `String`,
JavaScript arrays with `List`, and the external collaborators (minimatch,
`path.posix.resolve`, `fs`) are modelled explicitly: minimatch is an
abstract function parameter, the Node path resolver is re-implemented from
its documented semantics, and the filesystem is a finite tree value.
-/

namespace GpiiGlob

/-! ## String helpers (models of the JavaScript string primitives used) -/

/-- Model of `s.indexOf(pre) === 0`, i.e. the string `s` starts with `pre`. -/
def strStartsWith (s pre : String) : Bool :=
  pre.data.isPrefixOf s.data

/-- Model of `s.indexOf(c) !== -1` for a single character, i.e. `s` contains `c`. -/
def strContains (s : String) (c : Char) : Bool :=
  s.data.contains c

/-- Split a character list on the separator character `/`, exactly as
JavaScript `String.prototype.split("/")` does: splitting the empty string
yields one empty field, and adjacent separators yield empty fields. -/
def splitOnSlash : List Char → List (List Char)
  | [] => [[]]
  | c :: cs =>
    if c = '/' then [] :: splitOnSlash cs
    else
      match splitOnSlash cs with
      | [] => [[c]]
      | seg :: rest => (c :: seg) :: rest

/-- Model of `s.split("/")`. -/
def splitSegs (s : String) : List String :=
  (splitOnSlash s.data).map (fun l => ⟨l⟩)

/-- Model of `segments.join("/")`. -/
def joinSegs : List String → String
  | [] => ""
  | [s] => s
  | s :: rest => s ++ "/" ++ joinSegs rest

/-! ## Pattern classifier (`gpii.glob.positivePattern` and friends) -/

/-- Embedding of `gpii.glob.positivePattern`: strip a single leading `!`. -/
def positivePattern (pattern : String) : String :=
  if pattern.data.head? = some '!' then ⟨pattern.data.tail⟩ else pattern

/-- Embedding of `gpii.glob.positivePatterns`: keep the patterns without a
leading `!`, order preserved. -/
def positivePatterns (patterns : List String) : List String :=
  patterns.filter (fun pattern => pattern.data.head? ≠ some '!')

/-- Embedding of `gpii.glob.negativePatterns`: keep the patterns with a
leading `!` and strip that marker, order preserved. -/
def negativePatterns (patterns : List String) : List String :=
  (patterns.filter (fun pattern => pattern.data.head? = some '!')).map
    (fun pattern => (⟨pattern.data.tail⟩ : String))

/-! ## Node `path.posix.resolve`, modelled from its documented semantics.

The repository consumes `path.posix.resolve` as an external library
primitive.  `posixResolve cwd args` walks the argument list from the right
until an absolute path is found (falling back to the process working
directory `cwd`), joins the collected parts with `/`, and normalizes the
result, removing empty and `.` segments and resolving `..` segments. -/

/-- Normalization of a segment list: drop empty and `.` segments, resolve
`..` against the accumulator; when `allowAboveRoot` is set (relative
paths), surplus `..` segments are kept. -/
def normSegs (allowAboveRoot : Bool) (acc : List String) : List String → List String
  | [] => acc.reverse
  | s :: rest =>
    if s = "" ∨ s = "." then normSegs allowAboveRoot acc rest
    else if s = ".." then
      match acc with
      | [] => normSegs allowAboveRoot (if allowAboveRoot then [".."] else []) rest
      | t :: ts =>
        if t = ".." then normSegs allowAboveRoot (".." :: t :: ts) rest
        else normSegs allowAboveRoot ts rest
    else normSegs allowAboveRoot (s :: acc) rest

/-- One step of the part-collection walk: an absolute entry restarts the
collection, any other entry is appended. -/
def resolveStep (acc : List String) (s : String) : List String :=
  if strStartsWith s "/" then [s] else acc ++ [s]

/-- The parts of `cwd :: args` from the last absolute entry onwards (the
whole list when no entry is absolute), mirroring the right-to-left walk of
Node `path.posix.resolve`. -/
def resolveParts (cwd : String) (args : List String) : List String :=
  (cwd :: args).foldl resolveStep []

/-- Model of Node `path.posix.resolve(...args)` with working directory `cwd`. -/
def posixResolve (cwd : String) (args : List String) : String :=
  let parts := resolveParts cwd args
  let isAbs := match parts.head? with
    | some s => strStartsWith s "/"
    | none => false
  let segs := parts.flatMap splitSegs
  let normed := normSegs (!isAbs) [] segs
  if isAbs then "/" ++ joinSegs normed
  else if normed.isEmpty then "." else joinSegs normed

/-! ## `gpii.glob.sanitisePath` -/

/-- A path separator in the Windows sanitisation regular expression
`/[\/\\]+/`: forward slash or backslash. -/
def isSep (c : Char) : Bool := c = '/' || c = '\\'

/-- Dropping a matching initial run never lengthens a list. -/
theorem length_dropWhile_le_self (p : α → Bool) (l : List α) :
    (l.dropWhile p).length ≤ l.length := by
  induction l with
  | nil => simp [List.dropWhile]
  | cons a l ih =>
    simp only [List.dropWhile]
    by_cases h : p a = true
    · simp only [h]
      exact Nat.le_succ_of_le ih
    · simp [h]

/-- Split on runs of separators, the model of `split(/[\/\\]+/)`. -/
def splitSepRuns : List Char → List Char → List (List Char)
  | cur, [] => [cur.reverse]
  | cur, c :: cs =>
    if isSep c then cur.reverse :: splitSepRuns [] (cs.dropWhile isSep)
    else splitSepRuns (c :: cur) cs
termination_by _ l => l.length
decreasing_by
  · simp only [List.length_cons]
    exact Nat.lt_succ_of_le (length_dropWhile_le_self isSep cs)
  · simp [Nat.lt_succ_self]

/-- Whether a segment is a Windows drive letter, i.e. matches `/^[a-zA-Z]:$/`. -/
def isDriveLetter (s : String) : Bool :=
  match s.data with
  | [c, ':'] => c.isAlpha
  | _ => false

/-- Embedding of `gpii.glob.sanitisePath`: convert a Windows-style path to a
forward-slash, drive-letter-free form; other paths pass through unchanged. -/
def sanitisePath (rawPath : String) : String :=
  if rawPath.data.any (fun c => c = ':' || c = '\\') then
    let pathSegments := (splitSepRuns [] rawPath.data).map (fun l => (⟨l⟩ : String))
    let firstSegment := if isDriveLetter (pathSegments.headD "") then "" else pathSegments.headD ""
    joinSegs (firstSegment :: pathSegments.tail)
  else rawPath

/-! ## Pattern validation (`gpii.glob.invalidGlobRules`, `validatePattern`) -/

/-- A rule describing an invalid pattern: a human-readable message together
with the structural test embedded from the rule's regular expression. -/
structure InvalidRule where
  message : String
  test : String → Bool

/-- A violation record, the embedding of the `{glob, error}` objects built
by `gpii.glob.validatePattern`. -/
structure GlobViolation where
  glob : String
  error : String
deriving DecidableEq, Repr

/-- Rule `noLeadingWildcard`: regular expression `^(\.\/)?\*\*`. -/
def noLeadingWildcard : InvalidRule :=
  ⟨"contains a leading wildcard",
   fun s => strStartsWith s "**" || strStartsWith s "./**"⟩

/-- Rule `noWindowsSeparator`: regular expression `\\`. -/
def noWindowsSeparator : InvalidRule :=
  ⟨"contains a windows separator", fun s => strContains s '\\'⟩

/-- Rule `noParentDir`: regular expression `^\.\.`. -/
def noParentDir : InvalidRule :=
  ⟨"contains a reference to a parent directory", fun s => strStartsWith s ".."⟩

/-- A character rejected by rule `noRegexp`: one of `[](){}|`. -/
def isRegexpChar (c : Char) : Bool :=
  c = '[' || c = ']' || c = '(' || c = ')' || c = '\x7b' || c = '\x7d' || c = '|'

/-- Rule `noRegexp`: regular expression `[\[\](){}|]`. -/
def noRegexp : InvalidRule :=
  ⟨"contains a character used to define a regular expression",
   fun s => s.data.any isRegexpChar⟩

/-- Rule `noWholeRoot`: regular expression `^\.\/$`. -/
def noWholeRoot : InvalidRule :=
  ⟨"contains a reference to the whole of the root directory", fun s => s = "./"⟩

/-- Embedding of `gpii.glob.invalidGlobRules`, in the declared key order. -/
def invalidGlobRules : List InvalidRule :=
  [noLeadingWildcard, noWindowsSeparator, noParentDir, noRegexp, noWholeRoot]

/-- Embedding of `gpii.glob.validatePattern`: test the positive form of the
pattern against every rule of the active rule set (the default set when none
is supplied) and collect one violation per matching rule. -/
def validatePattern (pattern : String) (rules : Option (List InvalidRule)) :
    List GlobViolation :=
  let positive := positivePattern pattern
  let activeRules := rules.getD invalidGlobRules
  activeRules.filterMap (fun invalidGlobRule =>
    if invalidGlobRule.test positive then
      some ⟨positive, invalidGlobRule.message⟩
    else none)

/-- Embedding of `gpii.glob.validatePatternArray`: concatenate the
violations of every pattern of the array. -/
def validatePatternArray (patternArray : List String)
    (rules : Option (List InvalidRule)) : List GlobViolation :=
  patternArray.flatMap (fun pattern => validatePattern pattern rules)

/-- The single-quote character, kept out of string literals. -/
def squote : String := ⟨[Char.ofNat 39]⟩

/-- The line logged for one violation by `gpii.glob.logInvalidRuleFeedback`. -/
def ruleFeedbackLine (violation : GlobViolation) : String :=
  "ERROR: Pattern " ++ squote ++ violation.glob ++ squote ++ " "
    ++ violation.error ++ "."

/-- Embedding of `gpii.glob.logInvalidRuleFeedback`: the list of logged
lines, one per violation. -/
def logInvalidRuleFeedback (violations : List GlobViolation) : List String :=
  violations.map ruleFeedbackLine

/-! ## Directory pre-check (`gpii.glob.dirMightMatch`) -/

/-- The position-by-position comparison loop of `gpii.glob.dirMightMatch`,
walking the directory segments (first argument) against the pattern
segments (second argument).  An exhausted pattern list models the JavaScript
`undefined` segment, which differs from every path segment. -/
def dirLoop : List String → List String → Bool
  | [], _ => true
  | _ :: _, [] => false
  | d :: ds, p :: ps =>
    if p = "**" then true
    else if d = p then dirLoop ds ps
    else false

/-- Embedding of `gpii.glob.dirMightMatch`: a pattern without a separator
might match beneath any directory; otherwise compare segments from the root
until a `**` segment (candidate), a mismatch (not a candidate), or the
exhaustion of the directory path (candidate). -/
def dirMightMatch (pathToDir pattern : String) : Bool :=
  if strContains pattern '/' then
    dirLoop (splitSegs pathToDir) (splitSegs pattern)
  else true

/-! ## Single-pattern matcher (`gpii.glob.matchesSinglePattern`) -/

/-- The matching options handed to minimatch, modelled as the conventional
glob toggles named by the repository tests (`dot`, `matchBase`). -/
structure MinimatchOptions where
  dot : Bool := false
  matchBase : Bool := false
deriving DecidableEq, Repr, Inhabited

/-- The external minimatch primitive, consumed as a black box. -/
abbrev Minimatch := String → String → MinimatchOptions → Bool

/-- Embedding of `gpii.glob.matchesSinglePattern`: directories use the
relaxed `dirMightMatch` pre-check, files delegate to minimatch with the
options defaulted to `{}` when absent. -/
def matchesSinglePattern (mm : Minimatch) (pathToMatch pattern : String)
    (minimatchOptions : Option MinimatchOptions) (isDir : Bool) : Bool :=
  let opts := minimatchOptions.getD {}
  if isDir then dirMightMatch pathToMatch pattern
  else mm pathToMatch pattern opts

/-! ## Path-set filter (`gpii.glob.filterPaths`) -/

/-- Embedding of `gpii.glob.filterPaths`.  The filesystem stat of each
entry is modelled by the `isDirF` oracle.  An entry is kept when it matches
a positive include, and then either matches a negated exclude (checked with
the entry's directory flag) or matches neither a negated include nor a
positive exclude (both checked file-style, with the directory flag off). -/
def filterPaths (mm : Minimatch) (isDirF : String → Bool)
    (dirPaths includes excludes : List String)
    (minimatchOptions : Option MinimatchOptions) : List String :=
  let positiveIncludes := positivePatterns includes
  let negativeIncludes := negativePatterns includes
  let positiveExcludes := positivePatterns excludes
  let negativeExcludes := negativePatterns excludes
  dirPaths.filter (fun singlePath =>
    let isDir := isDirF singlePath
    let matchesPositiveInclude := positiveIncludes.any (fun positivePattern =>
      matchesSinglePattern mm singlePath positivePattern minimatchOptions isDir)
    if matchesPositiveInclude then
      let matchesNegatedExclude := negativeExcludes.any (fun negatedExcludePattern =>
        matchesSinglePattern mm singlePath negatedExcludePattern minimatchOptions isDir)
      if matchesNegatedExclude then true
      else
        let combinedExcludes := negativeIncludes ++ positiveExcludes
        let matchesExclude := combinedExcludes.any (fun excludePattern =>
          matchesSinglePattern mm singlePath excludePattern minimatchOptions false)
        !matchesExclude
    else false)

/-! ## Path rooting (`gpii.glob.addPathToPatterns`) -/

/-- Embedding of `gpii.glob.addPathToPatterns`: rewrite every pattern whose
positive form spans more than one segment by resolving it against the
sanitised root (absolute patterns keep their own root), preserving a
leading negation marker; single-segment patterns are returned untouched.
`cwd` models the process working directory consumed by the resolver. -/
def addPathToPatterns (cwd rootPath : String) (patterns : List String) :
    List String :=
  let sanitisedPath := sanitisePath rootPath
  patterns.map (fun pattern =>
    let positive := positivePattern pattern
    let isNegated := positive ≠ pattern
    let patternSegments := splitSegs positive
    if patternSegments.length > 1 then
      let isFullPath := patternSegments.head? = some ""
      let firstSegment :=
        if isFullPath then "/" ++ ((patternSegments.drop 1).headD "")
        else patternSegments.headD ""
      let remainingSegments := patternSegments.drop (if isFullPath then 2 else 1)
      let resolvedPath :=
        posixResolve cwd [sanitisedPath, firstSegment, joinSegs remainingSegments]
      (if isNegated then "!" else "") ++ resolvedPath
    else pattern)

/-! ## Filesystem model and recursive scanner (`gpii.glob.scanSingleDir`) -/

/-- A static filesystem snapshot: a node is a file or a directory holding
named children. -/
inductive FSNode where
  | file : FSNode
  | dir : List (String × FSNode) → FSNode

/-- Whether a node is a directory, the model of `stats.isDirectory()`. -/
def FSNode.isDir : FSNode → Bool
  | .file => false
  | .dir _ => true

/-- Lexicographic comparison of character lists, the model of the default
JavaScript string comparison used by `Array.prototype.sort()`. -/
def lexLe : List Char → List Char → Bool
  | [], _ => true
  | _ :: _, [] => false
  | a :: as, b :: bs =>
    if a < b then true
    else if b < a then false
    else lexLe as bs

/-- Order on scan entries: by full path. -/
def entryLe (a b : String × FSNode) : Bool := lexLe a.1.data b.1.data

/-- Insert an entry into a path-sorted entry list. -/
def insertSorted (x : String × FSNode) : List (String × FSNode) → List (String × FSNode)
  | [] => [x]
  | y :: ys => if entryLe x y then x :: y :: ys else y :: insertSorted x ys

/-- Sort an entry list by full path, the model of the `.sort()` call in
`gpii.glob.scanSingleDir`. -/
def sortEntries (l : List (String × FSNode)) : List (String × FSNode) :=
  l.foldr insertSorted []

/-- The full path of a directory entry, the model of
`path.posix.resolve(dirPath, subPath)`. -/
def childPath (cwd dirPath subPath : String) : String :=
  posixResolve cwd [dirPath, subPath]

/-- The listing of one directory level: children resolved against the
directory path and sorted, the model of
`fs.readdirSync(dirPath).map(...).sort()`. -/
def dirEntries (cwd dirPath : String) (children : List (String × FSNode)) :
    List (String × FSNode) :=
  sortEntries (children.map (fun c => (childPath cwd dirPath c.1, c.2)))

/-- Look a path up in a directory listing, the model of `fs.statSync`. -/
def findNode (entries : List (String × FSNode)) (p : String) : Option FSNode :=
  (entries.find? (fun e => e.1 = p)).map Prod.snd

/-- Whether a listed path is a directory. -/
def isDirAt (entries : List (String × FSNode)) (p : String) : Bool :=
  match findNode entries p with
  | some n => n.isDir
  | none => false

/-- Sorting permutes the entries. -/
theorem perm_insertSorted (x : String × FSNode) (l : List (String × FSNode)) :
    List.Perm (insertSorted x l) (x :: l) := by
  induction l with
  | nil => simp [insertSorted]
  | cons a l ih =>
    simp only [insertSorted]
    by_cases hle : entryLe x a = true
    · simp [hle]
    · simp only [hle, if_false]
      exact (List.Perm.cons a ih).trans (List.Perm.swap x a l)

/-- `sortEntries` permutes its input. -/
theorem perm_sortEntries (l : List (String × FSNode)) :
    List.Perm (sortEntries l) l := by
  induction l with
  | nil => simp [sortEntries]
  | cons a l ih =>
    simp only [sortEntries, List.foldr_cons]
    exact (perm_insertSorted a _).trans (List.Perm.cons a ih)

/-- A node found in a directory listing is the subtree of one of the
children, hence smaller than the directory node. -/
theorem sizeOf_lt_of_findNode {cwd dirPath : String}
    {children : List (String × FSNode)} {p : String} {n : FSNode}
    (h : findNode (dirEntries cwd dirPath children) p = some n) :
    sizeOf n < sizeOf (FSNode.dir children) := by
  have hmem : ∃ e, e ∈ dirEntries cwd dirPath children ∧ e.2 = n := by
    unfold findNode at h
    rcases Option.map_eq_some'.mp h with ⟨e, he, hsnd⟩
    exact ⟨e, List.mem_of_find?_eq_some he, hsnd⟩
  rcases hmem with ⟨e, he, hsnd⟩
  have he' : e ∈ children.map (fun c => (childPath cwd dirPath c.1, c.2)) :=
    ((perm_sortEntries _).mem_iff).mp he
  rcases List.mem_map.mp he' with ⟨c, hc, hce⟩
  have hsz : sizeOf c < sizeOf children := List.sizeOf_lt_of_mem hc
  have hn : n = c.2 := by
    rw [← hsnd, ← hce]
  subst hn
  rcases c with ⟨cn, cnode⟩
  simp only [FSNode.dir.sizeOf_spec]
  simp only [Prod.mk.sizeOf_spec] at hsz
  omega

/-- Embedding of `gpii.glob.scanSingleDir`: list one directory level,
filter it with the includes and excludes, then append files directly and
splice in the recursive scan of surviving directories. -/
def scanSingleDir (cwd : String) (mm : Minimatch) (includes excludes : List String)
    (minimatchOptions : Option MinimatchOptions) : String → FSNode → List String
  | _, .file => []
  | dirPath, .dir children =>
    (filterPaths mm (isDirAt (dirEntries cwd dirPath children))
        ((dirEntries cwd dirPath children).map Prod.fst)
        includes excludes minimatchOptions).flatMap
      (fun singlePath =>
        match hfind : findNode (dirEntries cwd dirPath children) singlePath with
        | some (FSNode.dir ch) =>
          scanSingleDir cwd mm includes excludes minimatchOptions singlePath
            (FSNode.dir ch)
        | some FSNode.file => [singlePath]
        | none => [])
termination_by _ node => sizeOf node
decreasing_by
  exact sizeOf_lt_of_findNode hfind

/-- All file paths of a subtree, with directories contributing nothing but
their descendants. -/
def filesUnder (cwd : String) : String → FSNode → List String
  | p, .file => [p]
  | dirPath, .dir children =>
    children.attach.flatMap
      (fun c => filesUnder cwd (childPath cwd dirPath c.1.1) c.1.2)
termination_by _ node => sizeOf node
decreasing_by
  rcases c with ⟨⟨cn, cnode⟩, hc⟩
  have hsz : sizeOf (cn, cnode) < sizeOf children := List.sizeOf_lt_of_mem hc
  simp only [FSNode.dir.sizeOf_spec]
  simp only [Prod.mk.sizeOf_spec] at hsz
  omega

/-! ## Top-level entry point (`gpii.glob.findFiles`) -/

/-- The fatal failure raised by `fluid.fail` in `gpii.glob.findFiles`,
together with the feedback lines logged beforehand. -/
structure GlobFailure where
  logLines : List String
  message : String
deriving DecidableEq, Repr

/-- The fixed diagnostic of `gpii.glob.findFiles`. -/
def invalidPatternsMessage : String :=
  "One or more glob patterns you have entered are invalid.  Cannot continue."

/-- Embedding of `gpii.glob.findFiles`: validate both pattern lists first
and fail with the combined diagnostic when any pattern is invalid;
otherwise resolve and sanitise the root, root the patterns against it and
scan the filesystem snapshot `fs`.  `resolvePath` models the external
`fluid.module.resolvePath` helper and `cwd` the process working
directory. -/
def findFiles (cwd : String) (mm : Minimatch) (resolvePath : String → String)
    (rootPath : String) (includes excludes : List String)
    (minimatchOptions : Option MinimatchOptions)
    (rules : Option (List InvalidRule)) (fs : FSNode) :
    Except GlobFailure (List String) :=
  let invalidIncludes := validatePatternArray includes rules
  let invalidExcludes := validatePatternArray excludes rules
  if invalidIncludes.length ≠ 0 ∨ invalidExcludes.length ≠ 0 then
    Except.error
      { logLines :=
          (if invalidIncludes.length ≠ 0 then logInvalidRuleFeedback invalidIncludes
           else [])
            ++ (if invalidExcludes.length ≠ 0 then logInvalidRuleFeedback invalidExcludes
                else []),
        message := invalidPatternsMessage }
  else
    let resolvedPath := sanitisePath (resolvePath rootPath)
    let pathedIncludes := addPathToPatterns cwd resolvedPath includes
    let pathedExcludes := addPathToPatterns cwd resolvedPath excludes
    Except.ok
      (scanSingleDir cwd mm pathedIncludes pathedExcludes minimatchOptions
        resolvedPath fs)

/-! ## Exact file-level matching, modelled from the spec.

Modelled from the spec: the repository consumes minimatch as an external
black box; the spec describes it as a conventional glob matcher where `*`
matches within a single path segment and `**` matches zero or more whole
segments.  `specFileMatch` embeds exactly that segment-wise semantics and
serves as the reference "true match relation" for the directory pre-check
claims. -/

/-- Disjunction of a predicate over all suffixes of a list, the engine of
the `*` and `**` wildcards (a wildcard absorbs some prefix and the rest of
the pattern must match the remaining suffix). -/
def anySuffix (f : List α → Bool) : List α → Bool
  | [] => f []
  | x :: xs => f (x :: xs) || anySuffix f xs

/-- Matching of one path segment against one pattern segment: `*` matches
any (possibly empty) run of characters, every other character matches
itself. -/
def segMatch : List Char → List Char → Bool
  | [], s => s.isEmpty
  | c :: ps, s =>
    if c = '*' then anySuffix (segMatch ps) s
    else
      match s with
      | [] => false
      | x :: xs => decide (c = x) && segMatch ps xs

/-- Matching of a whole segment list: a `**` pattern segment absorbs zero
or more path segments, every other pattern segment must match the next path
segment. -/
def globSegsMatch : List String → List String → Bool
  | [], ss => ss.isEmpty
  | p :: ps, ss =>
    if p = "**" then anySuffix (globSegsMatch ps) ss
    else
      match ss with
      | [] => false
      | s :: ss₂ => segMatch p.data s.data && globSegsMatch ps ss₂

/-- Modelled from the spec: exact file-level matching of a path against a
pattern, splitting both on `/`. -/
def specFileMatch (pathToMatch pattern : String) : Bool :=
  globSegsMatch (splitSegs pattern) (splitSegs pathToMatch)

/-- A directory path is a strict ancestor of a file path when its segment
list is a proper prefix of the file's segment list. -/
def isStrictAncestor (dirPath filePath : String) : Bool :=
  (splitSegs dirPath).isPrefixOf (splitSegs filePath)
    && decide ((splitSegs dirPath).length < (splitSegs filePath).length)

/-- Every pattern segment strictly before the first `**` segment, the final
segment excepted, is literal (contains no `*`): the condition under which
the directory pre-check is conservative. -/
def litBeforeWild : List String → Bool
  | [] => true
  | [_] => true
  | p :: ps =>
    if p = "**" then true
    else !(strContains p '*') && litBeforeWild ps

/-! ## Spec-side variants of the path-set filter -/

/-- The filter as the spec states it for claim comparison: every
exclude-side pattern — negated excludes included — is evaluated with exact
file-style matching even when the entry is a directory; only positive
includes use the relaxed directory pre-check. -/
def filterPathsFileStyleExcludes (mm : Minimatch) (isDirF : String → Bool)
    (dirPaths includes excludes : List String)
    (minimatchOptions : Option MinimatchOptions) : List String :=
  let positiveIncludes := positivePatterns includes
  let negativeIncludes := negativePatterns includes
  let positiveExcludes := positivePatterns excludes
  let negativeExcludes := negativePatterns excludes
  dirPaths.filter (fun singlePath =>
    let isDir := isDirF singlePath
    let matchesPositiveInclude := positiveIncludes.any (fun positivePattern =>
      matchesSinglePattern mm singlePath positivePattern minimatchOptions isDir)
    if matchesPositiveInclude then
      let matchesNegatedExclude := negativeExcludes.any (fun negatedExcludePattern =>
        matchesSinglePattern mm singlePath negatedExcludePattern minimatchOptions false)
      if matchesNegatedExclude then true
      else
        let combinedExcludes := negativeIncludes ++ positiveExcludes
        let matchesExclude := combinedExcludes.any (fun excludePattern =>
          matchesSinglePattern mm singlePath excludePattern minimatchOptions false)
        !matchesExclude
    else false)

/-- The acceptance test of one entry written as the four precedence steps
of the spec: must match a positive include (directories relaxed), a
matching negated exclude accepts unconditionally, otherwise any negated
include or positive exclude (both file-style) rejects.  Negated excludes
use, like includes, the relaxed pre-check on directories. -/
def specPrecedenceAccepts (mm : Minimatch) (isDirF : String → Bool)
    (includes excludes : List String)
    (minimatchOptions : Option MinimatchOptions) (entry : String) : Bool :=
  let isDir := isDirF entry
  let matchesInclude := (positivePatterns includes).any (fun p =>
    if isDir then dirMightMatch entry p else mm entry p (minimatchOptions.getD {}))
  let matchesNegatedExclude := (negativePatterns excludes).any (fun p =>
    if isDir then dirMightMatch entry p else mm entry p (minimatchOptions.getD {}))
  let matchesSoftExclude :=
    (negativePatterns includes ++ positivePatterns excludes).any (fun p =>
      mm entry p (minimatchOptions.getD {}))
  matchesInclude && (matchesNegatedExclude || !matchesSoftExclude)

/-- String-equality matcher, a concrete minimatch instance used on the
counterexample inputs. -/
def eqMatcher : Minimatch := fun pathToMatch pattern _ => pathToMatch == pattern

/-! ## Helper lemmas -/

/-- The single-pattern matcher written as a conditional. -/
theorem matchesSinglePattern_eq_ite (mm : Minimatch) (pathToMatch pattern : String)
    (minimatchOptions : Option MinimatchOptions) (isDir : Bool) :
    matchesSinglePattern mm pathToMatch pattern minimatchOptions isDir
      = if isDir then dirMightMatch pathToMatch pattern
        else mm pathToMatch pattern (minimatchOptions.getD {}) := by
  cases isDir <;> simp [matchesSinglePattern]

/-! ## Claim theorems -/

/-- C10: when the directory flag is set, `matchesSinglePattern` ignores the
minimatch options entirely — for any options `o₁`, `o₂` it coincides with
`dirMightMatch`, so matching options never influence which directories are
recursed into. -/
theorem matchesSinglePattern_dir_ignores_options (mm : Minimatch)
    (pathToMatch pattern : String) (o₁ o₂ : Option MinimatchOptions) :
    matchesSinglePattern mm pathToMatch pattern o₁ true
        = dirMightMatch pathToMatch pattern
      ∧ matchesSinglePattern mm pathToMatch pattern o₁ true
        = matchesSinglePattern mm pathToMatch pattern o₂ true :=
  ⟨rfl, rfl⟩

/-- C8 counterexample: `positivePattern` strips a single negation marker
only, so it is not idempotent — on `!!a` one application yields `!a`, a
second application yields `a`. -/
theorem positivePattern_not_idempotent :
    positivePattern (positivePattern "!!a") ≠ positivePattern "!!a" := by
  decide

/-- C8 amended: `positivePattern` is idempotent on every pattern that does
not begin with two negation markers. -/
theorem positivePattern_idempotent_of_single_negation (p : String)
    (h : strStartsWith p "!!" = false) :
    positivePattern (positivePattern p) = positivePattern p := by
  rcases p with ⟨data⟩
  cases data with
  | nil => rfl
  | cons c rest =>
    by_cases hc : c = '!'
    · subst hc
      cases rest with
      | nil => rfl
      | cons b rest₂ =>
        have hb : ¬ b = '!' := by
          intro hb
          subst hb
          have hdd : ("!!" : String).data = ['!', '!'] := rfl
          rw [strStartsWith, hdd] at h
          simp [List.isPrefixOf] at h
        simp [positivePattern, hb]
    · simp [positivePattern, hc]

/-- C8 witness: idempotence at a singly negated concrete pattern. -/
theorem positivePattern_idempotent_witness :
    positivePattern (positivePattern "!a") = positivePattern "!a" :=
  positivePattern_idempotent_of_single_negation "!a" (by decide)

/-- C3: negated-exclude precedence — an entry of the directory listing that
matches a positive include and a negated exclude (both under the entry's
directory flag) is accepted by `filterPaths`, whatever the remaining
excludes and negated includes are. -/
theorem filterPaths_negated_exclude_precedence (mm : Minimatch)
    (isDirF : String → Bool) (dirPaths includes excludes : List String)
    (minimatchOptions : Option MinimatchOptions) (entry : String)
    (hmem : entry ∈ dirPaths)
    (hinc : (positivePatterns includes).any (fun p =>
      matchesSinglePattern mm entry p minimatchOptions (isDirF entry)) = true)
    (hexc : (negativePatterns excludes).any (fun p =>
      matchesSinglePattern mm entry p minimatchOptions (isDirF entry)) = true) :
    entry ∈ filterPaths mm isDirF dirPaths includes excludes minimatchOptions := by
  unfold filterPaths
  refine List.mem_filter.mpr ⟨hmem, ?_⟩
  simp only [hinc, hexc, if_true]

/-- C3 witness: a concrete entry matching an include and a negated exclude
is kept although a positive exclude also matches it. -/
theorem filterPaths_negated_exclude_precedence_witness :
    "a" ∈ filterPaths eqMatcher (fun _ => false) ["a"] ["a"] ["!a", "a"] none :=
  filterPaths_negated_exclude_precedence eqMatcher (fun _ => false)
    ["a"] ["a"] ["!a", "a"] none "a" (by decide) (by decide) (by decide)

/-- C4: when the includes list holds no positive pattern, the path-set
filter accepts nothing and the recursive scan returns the empty list, for
every excludes list and every filesystem snapshot. -/
theorem no_positive_includes_empty_scan (cwd : String) (mm : Minimatch)
    (isDirF : String → Bool) (dirPaths includes excludes : List String)
    (minimatchOptions : Option MinimatchOptions) (dirPath : String) (fs : FSNode)
    (hpos : positivePatterns includes = []) :
    filterPaths mm isDirF dirPaths includes excludes minimatchOptions = []
      ∧ scanSingleDir cwd mm includes excludes minimatchOptions dirPath fs = [] := by
  have hfilter : ∀ (isDirF' : String → Bool) (dirPaths' : List String),
      filterPaths mm isDirF' dirPaths' includes excludes minimatchOptions = [] := by
    intro isDirF' dirPaths'
    unfold filterPaths
    rw [hpos]
    simp
  refine ⟨hfilter isDirF dirPaths, ?_⟩
  cases fs with
  | file => rw [scanSingleDir]
  | dir children =>
    rw [scanSingleDir]
    rw [hfilter]
    rfl

/-- C4 witness: root-only negated excludes contribute nothing on a concrete
snapshot containing a file that the negated exclude names. -/
theorem no_positive_includes_empty_scan_witness :
    filterPaths eqMatcher (fun _ => false) ["/r/x"] ["!/r/x"] ["!/r/x"] none = []
      ∧ scanSingleDir "/" eqMatcher ["!/r/x"] ["!/r/x"] none "/r"
          (FSNode.dir [("x", FSNode.file)]) = [] :=
  no_positive_includes_empty_scan "/" eqMatcher (fun _ => false) ["/r/x"]
    ["!/r/x"] ["!/r/x"] none "/r" (FSNode.dir [("x", FSNode.file)]) (by decide)

/-- C5: when any include or exclude pattern violates the active rule set,
`findFiles` fails with the single combined diagnostic, its feedback holds
one line per violation across both lists, and the outcome is the same for
every filesystem snapshot — no scan output is ever produced. -/
theorem findFiles_invalid_patterns_fail_fast (cwd : String) (mm : Minimatch)
    (resolvePath : String → String) (rootPath : String)
    (includes excludes : List String) (minimatchOptions : Option MinimatchOptions)
    (rules : Option (List InvalidRule)) (fs fs' : FSNode)
    (hbad : validatePatternArray includes rules ++ validatePatternArray excludes rules
      ≠ []) :
    findFiles cwd mm resolvePath rootPath includes excludes minimatchOptions rules fs
        = Except.error
            { logLines := logInvalidRuleFeedback
                (validatePatternArray includes rules
                  ++ validatePatternArray excludes rules),
              message := invalidPatternsMessage }
      ∧ findFiles cwd mm resolvePath rootPath includes excludes minimatchOptions rules fs
        = findFiles cwd mm resolvePath rootPath includes excludes minimatchOptions
            rules fs' := by
  have hite : ∀ l : List GlobViolation,
      (if l.length ≠ 0 then logInvalidRuleFeedback l else []) = logInvalidRuleFeedback l := by
    intro l
    cases l <;> simp [logInvalidRuleFeedback]
  have hcond : (validatePatternArray includes rules).length ≠ 0
      ∨ (validatePatternArray excludes rules).length ≠ 0 := by
    by_contra hno
    push_neg at hno
    obtain ⟨h1, h2⟩ := hno
    rw [List.length_eq_zero.mp h1, List.length_eq_zero.mp h2] at hbad
    exact hbad rfl
  constructor
  · unfold findFiles
    rw [if_pos hcond, hite, hite]
    simp [logInvalidRuleFeedback]
  · unfold findFiles
    rw [if_pos hcond, if_pos hcond]

/-- C5 witness: a concrete invalid include makes `findFiles` fail with the
combined diagnostic on any snapshot, identically on two different
snapshots. -/
theorem findFiles_invalid_patterns_fail_fast_witness :
    findFiles "/" eqMatcher (fun s => s) "/r" ["./**"] [] none none FSNode.file
        = Except.error
            { logLines := logInvalidRuleFeedback
                (validatePatternArray ["./**"] none ++ validatePatternArray [] none),
              message := invalidPatternsMessage }
      ∧ findFiles "/" eqMatcher (fun s => s) "/r" ["./**"] [] none none FSNode.file
        = findFiles "/" eqMatcher (fun s => s) "/r" ["./**"] [] none none
            (FSNode.dir [("x", FSNode.file)]) :=
  findFiles_invalid_patterns_fail_fast "/" eqMatcher (fun s => s) "/r" ["./**"] []
    none none FSNode.file (FSNode.dir [("x", FSNode.file)]) (by decide)

/-- C2 counterexample: `filterPaths` does not evaluate every exclude-side
pattern file-style — the negated-exclude check receives the directory flag,
so on a directory entry whose path is file-matched by a positive exclude
but only prefix-matched by a negated exclude, the code keeps the entry
while the file-style reading of the claim would drop it. -/
theorem filterPaths_negated_excludes_use_dir_check :
    filterPaths eqMatcher (fun _ => true) ["/r/d"] ["d"] ["!/r/d/x", "/r/d"] none
      ≠ filterPathsFileStyleExcludes eqMatcher (fun _ => true) ["/r/d"] ["d"]
          ["!/r/d/x", "/r/d"] none := by
  decide

/-- C2 amended: `filterPaths` realizes the spec's four precedence steps
with negated includes and positive excludes evaluated file-style even for
directories, while negated excludes — like positive includes — use the
relaxed directory pre-check on directory entries. -/
theorem filterPaths_eq_spec_precedence (mm : Minimatch) (isDirF : String → Bool)
    (dirPaths includes excludes : List String)
    (minimatchOptions : Option MinimatchOptions) :
    filterPaths mm isDirF dirPaths includes excludes minimatchOptions
      = dirPaths.filter
          (specPrecedenceAccepts mm isDirF includes excludes minimatchOptions) := by
  have key : ∀ A B C : Bool,
      (if A then (if B then true else !C) else false) = (A && (B || !C)) := by
    decide
  unfold filterPaths specPrecedenceAccepts
  apply List.filter_congr
  intro entry _
  have hfun : ∀ p : String,
      (if isDirF entry then dirMightMatch entry p
       else mm entry p (minimatchOptions.getD {}))
        = matchesSinglePattern mm entry p minimatchOptions (isDirF entry) :=
    fun p => (matchesSinglePattern_eq_ite mm entry p minimatchOptions (isDirF entry)).symm
  have hsoft : ∀ p : String,
      mm entry p (minimatchOptions.getD {})
        = matchesSinglePattern mm entry p minimatchOptions false :=
    fun _ => rfl
  simp only [hfun, hsoft]
  exact key _ _ _

/-- Membership in the violations of a pattern, in terms of the rule list. -/
theorem mem_validatePattern_iff (pattern : String) (rulesList : List InvalidRule)
    (v : GlobViolation) :
    v ∈ validatePattern pattern (some rulesList)
      ↔ ∃ r ∈ rulesList, r.test (positivePattern pattern) = true
          ∧ v = ⟨positivePattern pattern, r.message⟩ := by
  unfold validatePattern
  simp only [Option.getD_some, List.mem_filterMap]
  constructor
  · rintro ⟨r, hr, hite⟩
    by_cases ht : r.test (positivePattern pattern) = true
    · rw [if_pos ht] at hite
      exact ⟨r, hr, ht, (Option.some.injEq _ _ ▸ hite).symm⟩
    · rw [if_neg ht] at hite
      exact absurd hite (Option.noConfusion)
  · rintro ⟨r, hr, ht, hv⟩
    exact ⟨r, hr, by rw [if_pos ht, hv]⟩

/-- C6: under the default rule set a violation is reported exactly when the
positive form of the pattern begins with the recursive wildcard (with or
without a leading `./`), contains a backslash, begins with a
parent-directory reference, contains a regular-expression character, or is
exactly `./`; every reported violation names the positive form, and an
empty rule mapping yields no violation for any pattern. -/
theorem validatePattern_default_rules_characterization (pattern : String)
    (rules : Option (List InvalidRule)) :
    ((⟨positivePattern pattern, "contains a leading wildcard"⟩ : GlobViolation)
        ∈ validatePattern pattern none
      ↔ (strStartsWith (positivePattern pattern) "**" = true
          ∨ strStartsWith (positivePattern pattern) "./**" = true))
    ∧ ((⟨positivePattern pattern, "contains a windows separator"⟩ : GlobViolation)
        ∈ validatePattern pattern none
      ↔ strContains (positivePattern pattern) '\\' = true)
    ∧ ((⟨positivePattern pattern, "contains a reference to a parent directory"⟩ : GlobViolation)
        ∈ validatePattern pattern none
      ↔ strStartsWith (positivePattern pattern) ".." = true)
    ∧ ((⟨positivePattern pattern,
          "contains a character used to define a regular expression"⟩ : GlobViolation)
        ∈ validatePattern pattern none
      ↔ (positivePattern pattern).data.any isRegexpChar = true)
    ∧ ((⟨positivePattern pattern,
          "contains a reference to the whole of the root directory"⟩ : GlobViolation)
        ∈ validatePattern pattern none
      ↔ positivePattern pattern = "./")
    ∧ (∀ v ∈ validatePattern pattern rules, v.glob = positivePattern pattern)
    ∧ validatePattern pattern (some []) = [] := by
  have hnone : validatePattern pattern none = validatePattern pattern (some invalidGlobRules) :=
    rfl
  have hmem := fun v => mem_validatePattern_iff pattern invalidGlobRules v
  refine ⟨?_, ?_, ?_, ?_, ?_, ?_, rfl⟩
  · rw [hnone, hmem]
    simp [invalidGlobRules, noLeadingWildcard, noWindowsSeparator, noParentDir,
      noRegexp, noWholeRoot, GlobViolation.mk.injEq]
  · rw [hnone, hmem]
    simp [invalidGlobRules, noLeadingWildcard, noWindowsSeparator, noParentDir,
      noRegexp, noWholeRoot, GlobViolation.mk.injEq, strContains]
  · rw [hnone, hmem]
    simp [invalidGlobRules, noLeadingWildcard, noWindowsSeparator, noParentDir,
      noRegexp, noWholeRoot, GlobViolation.mk.injEq]
  · rw [hnone, hmem]
    simp [invalidGlobRules, noLeadingWildcard, noWindowsSeparator, noParentDir,
      noRegexp, noWholeRoot, GlobViolation.mk.injEq]
  · rw [hnone, hmem]
    simp [invalidGlobRules, noLeadingWildcard, noWindowsSeparator, noParentDir,
      noRegexp, noWholeRoot, GlobViolation.mk.injEq]
  · intro v hv
    unfold validatePattern at hv
    rcases List.mem_filterMap.mp hv with ⟨r, _, hite⟩
    by_cases ht : r.test (positivePattern pattern) = true
    · rw [if_pos ht] at hite
      rw [← Option.some.injEq _ _ |>.mp hite]
    · rw [if_neg ht] at hite
      exact absurd hite (Option.noConfusion)

/-- C6 witness: the pattern `./` is reported by the whole-root rule. -/
theorem validatePattern_default_rules_witness :
    (⟨"./", "contains a reference to the whole of the root directory"⟩ : GlobViolation)
      ∈ validatePattern "./" none :=
  ((validatePattern_default_rules_characterization "./" none).2.2.2.2.1).mpr (by decide)

/-- A literal pattern segment (no `*`) matches exactly itself. -/
theorem segMatch_of_no_star : ∀ {l₁ l₂ : List Char}, l₁.contains '*' = false →
    segMatch l₁ l₂ = true → l₁ = l₂ := by
  intro l₁
  induction l₁ with
  | nil =>
    intro l₂ _ h
    simp only [segMatch, List.isEmpty_iff] at h
    exact h.symm
  | cons c cs ih =>
    intro l₂ hns h
    have hc : ¬ c = '*' := by
      intro hc
      subst hc
      simp [List.contains_cons] at hns
    simp only [segMatch, hc, if_false] at h
    cases l₂ with
    | nil => exact absurd h (by simp)
    | cons x xs =>
      rw [Bool.and_eq_true, decide_eq_true_eq] at h
      obtain ⟨hcx, hrest⟩ := h
      have hns' : cs.contains '*' = false := by
        simp only [List.contains_cons, Bool.or_eq_false_iff] at hns
        exact hns.2
      rw [hcx, ih hns' hrest]

/-- The comparison loop of the directory pre-check accepts every strict
ancestor of a matching path, provided the pattern segments walked before
the first `**` are literal. -/
theorem dirLoop_conservative : ∀ (ds t ps : List String), t ≠ [] →
    globSegsMatch ps (ds ++ t) = true → litBeforeWild ps = true →
    dirLoop ds ps = true := by
  intro ds
  induction ds with
  | nil => intro t ps _ _ _; rfl
  | cons d ds ih =>
    intro t ps ht hglob hlit
    cases ps with
    | nil => simp [globSegsMatch] at hglob
    | cons p ps' =>
      by_cases hp : p = "**"
      · simp [dirLoop, hp]
      · rw [List.cons_append] at hglob
        simp only [globSegsMatch, hp, if_false, Bool.and_eq_true] at hglob
        obtain ⟨hseg, hrest⟩ := hglob
        cases ps' with
        | nil =>
          have hne : ds ++ t ≠ [] := by
            intro h0
            rcases List.append_eq_nil.mp h0 with ⟨_, h2⟩
            exact ht h2
          simp only [globSegsMatch, List.isEmpty_iff] at hrest
          exact absurd hrest hne
        | cons q qs =>
          simp only [litBeforeWild, hp, if_false, Bool.and_eq_true,
            Bool.not_eq_true'] at hlit
          obtain ⟨hnostar, hlit'⟩ := hlit
          have hpd : p = d := by
            have hdata := segMatch_of_no_star hnostar hseg
            rcases p with ⟨pd⟩
            rcases d with ⟨dd⟩
            exact congrArg String.mk hdata
          subst hpd
          simp only [dirLoop]
          rw [if_neg hp]
          simpa using ih t (q :: qs) ht hrest hlit'

/-- C1 counterexample: the directory pre-check is not a conservative
over-approximation of exact matching — with the single-segment wildcard in
a directory position, `/root/sub` is a strict ancestor of the matching file
`/root/sub/file.js` yet the pre-check rejects it (so the scanner would
prune the very directory holding the match). -/
theorem dirMightMatch_not_conservative :
    specFileMatch "/root/sub/file.js" "/root/*/file.js" = true
      ∧ isStrictAncestor "/root/sub" "/root/sub/file.js" = true
      ∧ strStartsWith "/root/*/file.js" "!" = false
      ∧ dirMightMatch "/root/sub" "/root/*/file.js" = false := by
  decide

/-- C1 amended: the pre-check is conservative for every positive pattern
whose segments strictly before the first `**` (final segment apart) are
wildcard-free — for such a pattern, `dirMightMatch` holds of every strict
ancestor of every path the pattern matches exactly. -/
theorem dirMightMatch_conservative_of_litBeforeWild (P D F : String)
    (hpos : strStartsWith P "!" = false)
    (hlit : litBeforeWild (splitSegs P) = true)
    (hmatch : specFileMatch F P = true)
    (hanc : isStrictAncestor D F = true) :
    dirMightMatch D P = true := by
  unfold dirMightMatch
  by_cases hsl : strContains P '/' = true
  · rw [if_pos hsl]
    unfold isStrictAncestor at hanc
    rw [Bool.and_eq_true, decide_eq_true_eq] at hanc
    obtain ⟨hpre, hlen⟩ := hanc
    obtain ⟨t, ht⟩ := List.isPrefixOf_iff_prefix.mp hpre
    have htne : t ≠ [] := by
      intro h0
      subst h0
      rw [List.append_nil] at ht
      rw [ht] at hlen
      exact Nat.lt_irrefl _ hlen
    unfold specFileMatch at hmatch
    rw [← ht] at hmatch
    exact dirLoop_conservative (splitSegs D) t (splitSegs P) htne hmatch hlit
  · rw [if_neg hsl]

/-- C1 witness: a `**` pattern, one of its matches and a strict ancestor
directory, accepted by the pre-check. -/
theorem dirMightMatch_conservative_witness :
    dirMightMatch "/r/s" "/r/**/f.js" = true :=
  dirMightMatch_conservative_of_litBeforeWild "/r/**/f.js" "/r/s" "/r/s/f.js"
    (by decide) (by decide) (by decide) (by decide)

/-- A successful stat during the scan names the subtree of one child of
the directory being scanned. -/
theorem findNode_spec {cwd dirPath : String} {children : List (String × FSNode)}
    {p : String} {n : FSNode}
    (h : findNode (dirEntries cwd dirPath children) p = some n) :
    ∃ c ∈ children, p = childPath cwd dirPath c.1 ∧ n = c.2 := by
  unfold findNode at h
  rcases Option.map_eq_some'.mp h with ⟨e, hfind, hsnd⟩
  have hpred : e.1 = p := by
    have := List.find?_some hfind
    exact decide_eq_true_eq.mp this
  have hmem : e ∈ dirEntries cwd dirPath children := List.mem_of_find?_eq_some hfind
  have hmem' : e ∈ children.map (fun c => (childPath cwd dirPath c.1, c.2)) :=
    ((perm_sortEntries _).mem_iff).mp hmem
  rcases List.mem_map.mp hmem' with ⟨c, hc, hce⟩
  refine ⟨c, hc, ?_, ?_⟩
  · rw [← hpred, ← hce]
  · rw [← hsnd, ← hce]

/-- A path of a child subtree is a path of the directory subtree. -/
theorem mem_filesUnder_of_child {cwd dirPath : String}
    {children : List (String × FSNode)} {c : String × FSNode} (hc : c ∈ children)
    {p : String} (hp : p ∈ filesUnder cwd (childPath cwd dirPath c.1) c.2) :
    p ∈ filesUnder cwd dirPath (FSNode.dir children) := by
  rw [filesUnder]
  exact List.mem_flatMap.mpr ⟨⟨c, hc⟩, List.mem_attach _ _, hp⟩

/-- Every path produced by the scan is the path of a file of the snapshot:
directories only drive recursion and are never part of the output. -/
theorem scan_subset_filesUnder (cwd : String) (mm : Minimatch)
    (includes excludes : List String) (opts : Option MinimatchOptions) :
    ∀ (dirPath : String) (node : FSNode) (p : String),
      p ∈ scanSingleDir cwd mm includes excludes opts dirPath node →
      p ∈ filesUnder cwd dirPath node := by
  intro dirPath node
  induction dirPath, node using scanSingleDir.induct cwd mm includes excludes opts with
  | case1 dirPath =>
    intro p hp
    rw [scanSingleDir] at hp
    exact absurd hp (List.not_mem_nil p)
  | case2 dirPath children ih =>
    intro p hp
    rw [scanSingleDir] at hp
    rcases List.mem_flatMap.mp hp with ⟨singlePath, _, hin⟩
    split at hin
    · next ch heq =>
      have hrec := ih singlePath ch heq p hin
      rcases findNode_spec heq with ⟨c, hc, hpath, hnode⟩
      rw [hpath] at hrec
      rw [hnode] at hrec
      exact mem_filesUnder_of_child hc hrec
    · next heq =>
      rcases findNode_spec heq with ⟨c, hc, hpath, hnode⟩
      have hp' : p ∈ filesUnder cwd (childPath cwd dirPath c.1) c.2 := by
        rw [← hnode, ← hpath, filesUnder]
        exact hin
      exact mem_filesUnder_of_child hc hp'
    · next heq =>
      exact absurd hin (List.not_mem_nil p)

/-- Head characterization of the lexicographic comparison. -/
theorem lexLe_cons_iff {a b : Char} {as bs : List Char} :
    lexLe (a :: as) (b :: bs) = true ↔ a < b ∨ (a = b ∧ lexLe as bs = true) := by
  by_cases h1 : a < b
  · simp [lexLe, h1]
  · by_cases h2 : b < a
    · have hne : ¬ a = b := by
        intro h
        subst h
        exact lt_irrefl a h2
      simp [lexLe, h1, h2, hne]
    · have heq : a = b := le_antisymm (not_lt.mp h2) (not_lt.mp h1)
      subst heq
      simp [lexLe, h1]

/-- The lexicographic comparison is total. -/
theorem lexLe_total : ∀ l₁ l₂ : List Char, lexLe l₁ l₂ = true ∨ lexLe l₂ l₁ = true := by
  intro l₁
  induction l₁ with
  | nil => intro l₂; left; rfl
  | cons a as ih =>
    intro l₂
    cases l₂ with
    | nil => right; rfl
    | cons b bs =>
      rcases lt_trichotomy a b with h | h | h
      · left
        exact lexLe_cons_iff.mpr (Or.inl h)
      · subst h
        rcases ih bs with h | h
        · left
          exact lexLe_cons_iff.mpr (Or.inr ⟨rfl, h⟩)
        · right
          exact lexLe_cons_iff.mpr (Or.inr ⟨rfl, h⟩)
      · right
        exact lexLe_cons_iff.mpr (Or.inl h)

/-- The lexicographic comparison is antisymmetric. -/
theorem lexLe_antisymm : ∀ {l₁ l₂ : List Char},
    lexLe l₁ l₂ = true → lexLe l₂ l₁ = true → l₁ = l₂ := by
  intro l₁
  induction l₁ with
  | nil =>
    intro l₂ _ h2
    cases l₂ with
    | nil => rfl
    | cons b bs => exact absurd h2 (by simp [lexLe])
  | cons a as ih =>
    intro l₂ h1 h2
    cases l₂ with
    | nil => exact absurd h1 (by simp [lexLe])
    | cons b bs =>
      rcases lexLe_cons_iff.mp h1 with hab | ⟨hab, htail1⟩
      · rcases lexLe_cons_iff.mp h2 with hba | ⟨hba, _⟩
        · exact absurd hba (lt_asymm hab)
        · exact absurd hab (hba ▸ lt_irrefl b)
      · subst hab
        rcases lexLe_cons_iff.mp h2 with hba | ⟨_, htail2⟩
        · exact absurd hba (lt_irrefl a)
        · rw [ih htail1 htail2]

/-- The lexicographic comparison is transitive. -/
theorem lexLe_trans : ∀ {l₁ l₂ l₃ : List Char},
    lexLe l₁ l₂ = true → lexLe l₂ l₃ = true → lexLe l₁ l₃ = true := by
  intro l₁
  induction l₁ with
  | nil => intro l₂ l₃ _ _; rfl
  | cons a as ih =>
    intro l₂ l₃ h1 h2
    cases l₂ with
    | nil => exact absurd h1 (by simp [lexLe])
    | cons b bs =>
      cases l₃ with
      | nil => exact absurd h2 (by simp [lexLe])
      | cons c cs =>
        rcases lexLe_cons_iff.mp h1 with hab | ⟨hab, htail1⟩ <;>
          rcases lexLe_cons_iff.mp h2 with hbc | ⟨hbc, htail2⟩
        · exact lexLe_cons_iff.mpr (Or.inl (lt_trans hab hbc))
        · exact lexLe_cons_iff.mpr (Or.inl (hbc ▸ hab))
        · exact lexLe_cons_iff.mpr (Or.inl (hab ▸ hbc))
        · exact lexLe_cons_iff.mpr (Or.inr ⟨hab.trans hbc, ih htail1 htail2⟩)

/-- Entry order: total. -/
theorem entryLe_total (a b : String × FSNode) :
    entryLe a b = true ∨ entryLe b a = true :=
  lexLe_total a.1.data b.1.data

/-- Entry order: transitive. -/
theorem entryLe_trans {a b c : String × FSNode}
    (h1 : entryLe a b = true) (h2 : entryLe b c = true) : entryLe a c = true :=
  lexLe_trans h1 h2

/-- Entry order: antisymmetric on the path component. -/
theorem entryLe_antisymm {a b : String × FSNode}
    (h1 : entryLe a b = true) (h2 : entryLe b a = true) : a.1 = b.1 := by
  rcases a with ⟨⟨ad⟩, an⟩
  rcases b with ⟨⟨bd⟩, bn⟩
  exact congrArg String.mk (lexLe_antisymm h1 h2)

/-- Insertion preserves sortedness. -/
theorem pairwise_insertSorted {x : String × FSNode} {l : List (String × FSNode)}
    (h : List.Pairwise (fun a b => entryLe a b = true) l) :
    List.Pairwise (fun a b => entryLe a b = true) (insertSorted x l) := by
  induction l with
  | nil => simp [insertSorted]
  | cons y ys ih =>
    rcases List.pairwise_cons.mp h with ⟨hy, hys⟩
    simp only [insertSorted]
    by_cases hle : entryLe x y = true
    · rw [if_pos hle]
      refine List.Pairwise.cons ?_ h
      intro z hz
      rcases List.mem_cons.mp hz with hz | hz
      · rw [hz]
        exact hle
      · exact entryLe_trans hle (hy z hz)
    · rw [if_neg hle]
      refine List.Pairwise.cons ?_ (ih hys)
      intro z hz
      rcases List.mem_cons.mp (((perm_insertSorted x ys).mem_iff).mp hz) with hz | hz
      · rw [hz]
        rcases entryLe_total x y with h' | h'
        · exact absurd h' hle
        · exact h'
      · exact hy z hz

/-- The scan listing is sorted. -/
theorem pairwise_sortEntries (l : List (String × FSNode)) :
    List.Pairwise (fun a b => entryLe a b = true) (sortEntries l) := by
  induction l with
  | nil => simp [sortEntries]
  | cons a l ih => exact pairwise_insertSorted ih

/-- Two sorted permutations of each other with distinct paths are equal. -/
theorem sorted_perm_eq : ∀ {l₁ l₂ : List (String × FSNode)}, l₁.Perm l₂ →
    List.Pairwise (fun a b => entryLe a b = true) l₁ →
    List.Pairwise (fun a b => entryLe a b = true) l₂ →
    (l₁.map Prod.fst).Nodup → l₁ = l₂ := by
  intro l₁
  induction l₁ with
  | nil =>
    intro l₂ hperm _ _ _
    exact (hperm.nil_eq).symm ▸ rfl
  | cons a t₁ ih =>
    intro l₂ hperm hs₁ hs₂ hnd
    cases l₂ with
    | nil => exact absurd hperm.symm.nil_eq (by simp)
    | cons b t₂ =>
      by_cases hab : a = b
      · subst hab
        have htperm := hperm.cons_inv
        rcases List.pairwise_cons.mp hs₁ with ⟨_, hs₁'⟩
        rcases List.pairwise_cons.mp hs₂ with ⟨_, hs₂'⟩
        have hnd' : (t₁.map Prod.fst).Nodup := by
          rw [List.map_cons] at hnd
          exact (List.nodup_cons.mp hnd).2
        rw [ih htperm hs₁' hs₂' hnd']
      · exfalso
        have hain : a ∈ t₂ := by
          have : a ∈ b :: t₂ := hperm.mem_iff.mp (List.mem_cons_self a t₁)
          rcases List.mem_cons.mp this with h | h
          · exact absurd h hab
          · exact h
        have hbin : b ∈ t₁ := by
          have : b ∈ a :: t₁ := hperm.mem_iff.mpr (List.mem_cons_self b t₂)
          rcases List.mem_cons.mp this with h | h
          · exact absurd h.symm hab
          · exact h
        have hba : entryLe b a = true := (List.pairwise_cons.mp hs₂).1 a hain
        have hab' : entryLe a b = true := (List.pairwise_cons.mp hs₁).1 b hbin
        have hfst : a.1 = b.1 := entryLe_antisymm hab' hba
        rw [List.map_cons, List.nodup_cons] at hnd
        exact hnd.1 (hfst ▸ List.mem_map_of_mem Prod.fst hbin)

/-- Sorting is canonical: two permuted listings with distinct paths sort to
the same result. -/
theorem sortEntries_perm_eq {l l' : List (String × FSNode)} (hperm : l.Perm l')
    (hnd : (l.map Prod.fst).Nodup) : sortEntries l = sortEntries l' := by
  apply sorted_perm_eq
  · exact (perm_sortEntries l).trans (hperm.trans (perm_sortEntries l').symm)
  · exact pairwise_sortEntries l
  · exact pairwise_sortEntries l'
  · exact (((perm_sortEntries l).map Prod.fst).nodup_iff).mpr hnd

/-- C9: every path returned by the scan is the path of a file of the
snapshot — directories only drive recursion — and because each directory
level is processed in sorted order, the output is determined by the
snapshot alone: listing the children of a level in any other order (paths
being distinct, as in a real directory) yields the identical output list. -/
theorem scanSingleDir_files_only_and_deterministic (cwd : String) (mm : Minimatch)
    (includes excludes : List String) (opts : Option MinimatchOptions) :
    (∀ (dirPath : String) (node : FSNode) (p : String),
        p ∈ scanSingleDir cwd mm includes excludes opts dirPath node →
        p ∈ filesUnder cwd dirPath node)
    ∧ (∀ (dirPath : String) (children children' : List (String × FSNode)),
        children.Perm children' →
        (children.map (fun c => childPath cwd dirPath c.1)).Nodup →
        scanSingleDir cwd mm includes excludes opts dirPath (FSNode.dir children)
          = scanSingleDir cwd mm includes excludes opts dirPath
              (FSNode.dir children')) := by
  constructor
  · exact scan_subset_filesUnder cwd mm includes excludes opts
  · intro dirPath children children' hperm hnd
    have hde : dirEntries cwd dirPath children = dirEntries cwd dirPath children' := by
      unfold dirEntries
      apply sortEntries_perm_eq
      · exact hperm.map _
      · rw [List.map_map]
        exact hnd
    conv_lhs => rw [scanSingleDir]
    conv_rhs => rw [scanSingleDir]
    rw [hde]

/-- C9 witness: on a concrete snapshot the scan output is a file path, and
swapping the children listing leaves the scan unchanged. -/
theorem scanSingleDir_files_only_and_deterministic_witness :
    "/fx/a.js" ∈ filesUnder "/" "/fx" (FSNode.dir [("a.js", FSNode.file)])
    ∧ scanSingleDir "/" eqMatcher ["/fx/a.js"] [] none "/fx"
        (FSNode.dir [("a.js", FSNode.file), ("b", FSNode.file)])
      = scanSingleDir "/" eqMatcher ["/fx/a.js"] [] none "/fx"
          (FSNode.dir [("b", FSNode.file), ("a.js", FSNode.file)]) :=
  ⟨(scanSingleDir_files_only_and_deterministic "/" eqMatcher ["/fx/a.js"] [] none).1
      "/fx" (FSNode.dir [("a.js", FSNode.file)]) "/fx/a.js"
      (by rw [scanSingleDir]; decide),
   (scanSingleDir_files_only_and_deterministic "/" eqMatcher ["/fx/a.js"] [] none).2
      "/fx" [("a.js", FSNode.file), ("b", FSNode.file)]
      [("b", FSNode.file), ("a.js", FSNode.file)]
      (List.Perm.swap ("b", FSNode.file) ("a.js", FSNode.file) [])
      (by decide)⟩

/-! ## Split and join laws used by the rooting claim -/

/-- Character-level join with `/`, the mirror of `joinSegs`. -/
def joinCharSegs : List (List Char) → List Char
  | [] => []
  | [s] => s
  | s :: rest => s ++ '/' :: joinCharSegs rest

/-- Splitting never yields an empty field list. -/
theorem splitOnSlash_ne_nil : ∀ l : List Char, splitOnSlash l ≠ [] := by
  intro l
  cases l with
  | nil => simp [splitOnSlash]
  | cons c cs =>
    by_cases hc : c = '/'
    · simp [splitOnSlash, hc]
    · simp only [splitOnSlash, hc, if_false]
      cases h : splitOnSlash cs <;> simp

/-- Splitting a slash-free character list yields a single field. -/
theorem splitOnSlash_no_slash : ∀ {l : List Char}, l.contains '/' = false →
    splitOnSlash l = [l] := by
  intro l
  induction l with
  | nil => intro _; rfl
  | cons c cs ih =>
    intro h
    simp only [List.contains_cons, Bool.or_eq_false_iff] at h
    obtain ⟨hc, hcs⟩ := h
    have hc' : ¬ c = '/' := by
      intro h0
      rw [h0] at hc
      simp at hc
    simp only [splitOnSlash, hc', if_false, ih hcs]

/-- Splitting after a slash-free field and a separator recurses. -/
theorem splitOnSlash_append : ∀ {xs : List Char}, xs.contains '/' = false →
    ∀ ys : List Char, splitOnSlash (xs ++ '/' :: ys) = xs :: splitOnSlash ys := by
  intro xs
  induction xs with
  | nil => intro _ ys; simp [splitOnSlash]
  | cons x xs ih =>
    intro h ys
    simp only [List.contains_cons, Bool.or_eq_false_iff] at h
    obtain ⟨hx, hxs⟩ := h
    have hx' : ¬ x = '/' := by
      intro h0
      rw [h0] at hx
      simp at hx
    simp only [List.cons_append, splitOnSlash, hx', if_false, List.append_eq,
      ih hxs ys]

/-- Join undoes split. -/
theorem joinCharSegs_splitOnSlash : ∀ l : List Char,
    joinCharSegs (splitOnSlash l) = l := by
  intro l
  induction l with
  | nil => rfl
  | cons c cs ih =>
    by_cases hc : c = '/'
    · subst hc
      simp only [splitOnSlash, if_pos rfl]
      rcases hsp : splitOnSlash cs with _ | ⟨s, rest⟩
      · exact absurd hsp (splitOnSlash_ne_nil cs)
      · rw [hsp] at ih
        simp only [joinCharSegs, List.nil_append]
        rw [ih]
    · simp only [splitOnSlash, hc, if_false]
      rcases hsp : splitOnSlash cs with _ | ⟨s, rest⟩
      · exact absurd hsp (splitOnSlash_ne_nil cs)
      · rw [hsp] at ih
        cases rest with
        | nil =>
          simp only [joinCharSegs] at ih ⊢
          rw [ih]
        | cons r rs =>
          simp only [joinCharSegs, List.cons_append] at ih ⊢
          rw [ih]

/-- Every field of a split is slash-free. -/
theorem splitOnSlash_no_slash_mem : ∀ {l seg : List Char},
    seg ∈ splitOnSlash l → seg.contains '/' = false := by
  intro l
  induction l with
  | nil =>
    intro seg h
    simp only [splitOnSlash, List.mem_singleton] at h
    subst h
    rfl
  | cons c cs ih =>
    intro seg h
    by_cases hc : c = '/'
    · subst hc
      have hsplit : splitOnSlash ('/' :: cs) = [] :: splitOnSlash cs := by
        simp [splitOnSlash]
      rw [hsplit] at h
      rcases List.mem_cons.mp h with h | h
      · subst h; rfl
      · exact ih h
    · simp only [splitOnSlash, hc, if_false] at h
      rcases hsp : splitOnSlash cs with _ | ⟨s, rest⟩
      · exact absurd hsp (splitOnSlash_ne_nil cs)
      · rw [hsp] at h
        rcases List.mem_cons.mp h with h | h
        · subst h
          have hs : s.contains '/' = false := ih (hsp ▸ List.mem_cons_self s rest)
          simp only [List.contains_cons, Bool.or_eq_false_iff]
          refine ⟨?_, hs⟩
          simp only [beq_eq_false_iff_ne, ne_eq]
          intro h0
          exact hc h0.symm
        · exact ih (hsp ▸ List.mem_cons_of_mem s h)

/-- The character data of a join. -/
theorem joinSegs_data : ∀ l : List String,
    (joinSegs l).data = joinCharSegs (l.map String.data) := by
  intro l
  induction l with
  | nil => rfl
  | cons s rest ih =>
    cases rest with
    | nil => rfl
    | cons t ts =>
      simp only [joinSegs, joinCharSegs, List.map_cons]
      rw [String.data_append, String.data_append, ih]
      simp only [List.map_cons, List.append_assoc, List.singleton_append]

/-- Join undoes split, string level. -/
theorem joinSegs_splitSegs (s : String) : joinSegs (splitSegs s) = s := by
  have h1 : (joinSegs (splitSegs s)).data = s.data := by
    rw [joinSegs_data]
    unfold splitSegs
    rw [List.map_map]
    have hmap : ((splitOnSlash s.data).map (String.data ∘ fun l => (⟨l⟩ : String)))
        = splitOnSlash s.data := by
      apply List.map_id''
      intro l
      rfl
    rw [hmap, joinCharSegs_splitOnSlash]
  rcases s with ⟨d⟩
  exact congrArg String.mk h1

/-- Split undoes join for nonempty lists of slash-free fields. -/
theorem splitSegs_joinSegs : ∀ l : List String, l ≠ [] →
    (∀ s ∈ l, strContains s '/' = false) → splitSegs (joinSegs l) = l := by
  intro l
  induction l with
  | nil => intro h _; exact absurd rfl h
  | cons s rest ih =>
    intro _ hfree
    cases rest with
    | nil =>
      simp only [joinSegs, splitSegs]
      rw [splitOnSlash_no_slash (hfree s (List.mem_cons_self s []))]
      simp only [List.map_cons, List.map_nil]
    | cons t ts =>
      have hsfree : s.data.contains '/' = false :=
        hfree s (List.mem_cons_self s (t :: ts))
      have hjoin : (joinSegs (s :: t :: ts)).data
          = s.data ++ '/' :: (joinSegs (t :: ts)).data := by
        simp only [joinSegs]
        rw [String.data_append, String.data_append]
        simp only [List.append_assoc, List.singleton_append]
      have hrest : splitSegs (joinSegs (t :: ts)) = t :: ts := by
        apply ih (by simp)
        intro u hu
        exact hfree u (List.mem_cons_of_mem s hu)
      unfold splitSegs at hrest ⊢
      rw [hjoin, splitOnSlash_append hsfree]
      simp only [List.map_cons]
      rw [hrest]

/-- Appending never disturbs a prefix. -/
theorem strStartsWith_append (a b : String) : strStartsWith (a ++ b) a = true := by
  unfold strStartsWith
  rw [String.data_append]
  exact List.isPrefixOf_iff_prefix.mpr ⟨b.data, rfl⟩

/-- Starting with `/` is having `/` as first character. -/
theorem strStartsWith_slash_iff (s : String) :
    strStartsWith s "/" = true ↔ s.data.head? = some '/' := by
  unfold strStartsWith
  have hd : ("/" : String).data = ['/'] := rfl
  rw [hd]
  cases s.data with
  | nil => simp [List.isPrefixOf]
  | cons c cs =>
    simp only [List.isPrefixOf, Bool.and_eq_true, beq_iff_eq, List.head?_cons,
      Option.some.injEq]
    constructor
    · rintro ⟨h, _⟩
      exact h.symm
    · intro h
      exact ⟨h.symm, by simp [List.isPrefixOf]⟩

/-- The empty string is a neutral element of append. -/
theorem empty_append (s : String) : "" ++ s = s := by
  rcases s with ⟨d⟩
  show String.mk ([] ++ d) = String.mk d
  rw [List.nil_append]

/-- A slash-free nonempty string does not start with `/`. -/
theorem not_startsWith_slash_of_no_slash {s : String}
    (h : strContains s '/' = false) (hne : s.data ≠ []) :
    strStartsWith s "/" = false := by
  rcases hcase : strStartsWith s "/" with _ | _
  · rfl
  · exfalso
    have hh := (strStartsWith_slash_iff s).mp hcase
    unfold strContains at h
    cases hd : s.data with
    | nil => exact hne hd
    | cons c cs =>
      rw [hd] at hh
      simp only [List.head?_cons, Option.some.injEq] at hh
      rw [hd, hh] at h
      simp [List.contains_cons] at h

/-- Fields of a split are slash-free, string level. -/
theorem mem_splitSegs_no_slash {s seg : String} (h : seg ∈ splitSegs s) :
    strContains seg '/' = false := by
  unfold splitSegs at h
  rcases List.mem_map.mp h with ⟨l, hl, hseg⟩
  rw [← hseg]
  exact splitOnSlash_no_slash_mem hl

/-- A string containing a `/` splits into more than one field. -/
theorem splitOnSlash_length_gt_one : ∀ {l : List Char}, l.contains '/' = true →
    1 < (splitOnSlash l).length := by
  intro l
  induction l with
  | nil => intro h; simp at h
  | cons c cs ih =>
    intro h
    by_cases hc : c = '/'
    · subst hc
      have hsplit : splitOnSlash ('/' :: cs) = [] :: splitOnSlash cs := by
        simp [splitOnSlash]
      rw [hsplit, List.length_cons]
      have := List.length_pos.mpr (splitOnSlash_ne_nil cs)
      omega
    · have hcs : cs.contains '/' = true := by
        simp only [List.contains_cons, Bool.or_eq_true] at h
        rcases h with h | h
        · exact absurd (beq_iff_eq.mp h).symm hc
        · exact h
      rcases hsp : splitOnSlash cs with _ | ⟨s, rest⟩
      · exact absurd hsp (splitOnSlash_ne_nil cs)
      · have hlen := ih hcs
        rw [hsp] at hlen
        simp only [splitOnSlash, hc, if_false, hsp, List.length_cons] at *
        omega

/-- String-level version. -/
theorem splitSegs_length_gt_one {s : String} (h : strContains s '/' = true) :
    1 < (splitSegs s).length := by
  unfold splitSegs
  rw [List.length_map]
  exact splitOnSlash_length_gt_one h

/-- A string not starting with `/` splits into fields whose head is not
the empty field, provided the string is nonempty. -/
theorem splitSegs_head_ne_empty {s : String} (hne : s.data ≠ [])
    (h : strStartsWith s "/" = false) : (splitSegs s).head? ≠ some "" := by
  cases hd : s.data with
  | nil => exact absurd hd hne
  | cons c cs =>
    have hc : ¬ c = '/' := by
      intro h0
      have : strStartsWith s "/" = true := by
        rw [strStartsWith_slash_iff, hd, h0]
        rfl
      rw [this] at h
      simp at h
    unfold splitSegs
    rw [hd]
    rcases hsp : splitOnSlash cs with _ | ⟨t, rest⟩
    · exact absurd hsp (splitOnSlash_ne_nil cs)
    · simp only [splitOnSlash, hc, if_false, hsp, List.map_cons, List.head?_cons]
      intro hcon
      have : c :: t = [] := congrArg String.data (Option.some.injEq _ _ ▸ hcon)
      simp at this

/-- A string starting with `/` splits with an empty head field. -/
theorem splitSegs_head_of_slash {s : String} (h : strStartsWith s "/" = true) :
    (splitSegs s).head? = some "" := by
  have hh := (strStartsWith_slash_iff s).mp h
  cases hd : s.data with
  | nil => rw [hd] at hh; simp at hh
  | cons c cs =>
    rw [hd] at hh
    simp only [List.head?_cons, Option.some.injEq] at hh
    unfold splitSegs
    rw [hd, hh]
    have hsplit : splitOnSlash ('/' :: cs) = [] :: splitOnSlash cs := by
      simp [splitOnSlash]
    rw [hsplit]
    rfl

/-- A segment that neither is empty nor refers to the current or parent
directory. -/
def goodSeg (s : String) : Bool := !(s == "") && !(s == ".") && !(s == "..")

/-- A normalized absolute root with at least one proper segment, e.g.
`/root` or `/a/b`. -/
def cleanRootAbs (r : String) : Bool :=
  match splitSegs r with
  | [] => false
  | s :: rest => s == "" && !rest.isEmpty && rest.all goodSeg

/-- A pattern whose positive form has no empty and no parent-directory
segment (so it cannot climb out of the root). -/
def noEscapeSegs (s : String) : Bool :=
  (splitSegs s).all (fun seg => !(seg == "") && !(seg == ".."))

/-- Normalization of a dot-free, parent-free segment list just drops the
`.` segments. -/
theorem normSegs_good : ∀ (xs acc : List String),
    (∀ s ∈ xs, ¬ s = "" ∧ ¬ s = "..") →
    normSegs false acc xs = acc.reverse ++ xs.filter (fun s => !(s == ".")) := by
  intro xs
  induction xs with
  | nil => intro acc _; simp [normSegs]
  | cons s xs ih =>
    intro acc h
    have hs := h s (List.mem_cons_self s xs)
    have hrest : ∀ u ∈ xs, ¬ u = "" ∧ ¬ u = ".." := fun u hu =>
      h u (List.mem_cons_of_mem s hu)
    by_cases hdot : s = "."
    · subst hdot
      have hstep : normSegs false acc ("." :: xs) = normSegs false acc xs := by
        simp [normSegs]
      rw [hstep, ih acc hrest]
      simp [List.filter_cons]
    · have hcond : ¬ (s = "" ∨ s = ".") := by
        rintro (h0 | h0)
        · exact hs.1 h0
        · exact hdot h0
      have hstep : normSegs false acc (s :: xs) = normSegs false (s :: acc) xs := by
        simp only [normSegs, if_neg hcond, if_neg hs.2]
      rw [hstep, ih (s :: acc) hrest]
      have hfilter : (s :: xs).filter (fun u => !(u == "."))
          = s :: xs.filter (fun u => !(u == ".")) := by
        simp [List.filter_cons, hdot]
      rw [hfilter]
      simp

/-- Join distributes over append of nonempty field lists. -/
theorem joinSegs_append : ∀ (l₁ l₂ : List String), l₁ ≠ [] → l₂ ≠ [] →
    joinSegs (l₁ ++ l₂) = joinSegs l₁ ++ "/" ++ joinSegs l₂ := by
  intro l₁
  induction l₁ with
  | nil => intro l₂ h _; exact absurd rfl h
  | cons s l₁ ih =>
    intro l₂ _ h₂
    cases l₁ with
    | nil =>
      cases l₂ with
      | nil => exact absurd rfl h₂
      | cons t ts => simp [joinSegs]
    | cons u us =>
      simp only [List.cons_append]
      have h3 : joinSegs (s :: u :: (us ++ l₂)) = s ++ "/" ++ joinSegs (u :: (us ++ l₂)) := by
        simp [joinSegs]
      have h4 : joinSegs (s :: u :: us) = s ++ "/" ++ joinSegs (u :: us) := by
        simp [joinSegs]
      rw [h3, h4]
      have h5 := ih l₂ (by simp) h₂
      rw [List.cons_append] at h5
      rw [h5]
      simp [String.append_assoc]

/-- The head field determines the head character of a join. -/
theorem joinSegs_head {u : String} (hu : u.data ≠ []) (l : List String) :
    (joinSegs (u :: l)).data.head? = u.data.head? := by
  cases l with
  | nil => rfl
  | cons t ts =>
    have : joinSegs (u :: t :: ts) = u ++ "/" ++ joinSegs (t :: ts) := by
      simp [joinSegs]
    rw [this, String.append_assoc, String.data_append]
    cases hd : u.data with
    | nil => exact absurd hd hu
    | cons c cs => simp

/-- The collection walk keeps an absolute head once it has one. -/
theorem foldl_resolveStep_head : ∀ (args acc : List String) (a : String),
    acc.head? = some a → strStartsWith a "/" = true →
    ∃ b, (args.foldl resolveStep acc).head? = some b
      ∧ strStartsWith b "/" = true := by
  intro args
  induction args with
  | nil =>
    intro acc a ha habs
    exact ⟨a, ha, habs⟩
  | cons s args ih =>
    intro acc a ha habs
    rw [List.foldl_cons]
    by_cases hs : strStartsWith s "/" = true
    · have hstep : resolveStep acc s = [s] := by
        unfold resolveStep
        rw [hs]
        simp
      rw [hstep]
      exact ih [s] s rfl hs
    · have hstep : resolveStep acc s = acc ++ [s] := by
        unfold resolveStep
        rw [Bool.not_eq_true] at hs
        rw [hs]
        simp
      rw [hstep]
      cases acc with
      | nil => simp at ha
      | cons x xs =>
        simp only [List.head?_cons, Option.some.injEq] at ha
        subst ha
        exact ih ((x :: xs) ++ [s]) x rfl habs

/-- Resolution from an absolute working directory yields an absolute
path. -/
theorem posixResolve_abs_of_cwd (cwd : String) (args : List String)
    (hcwd : strStartsWith cwd "/" = true) :
    strStartsWith (posixResolve cwd args) "/" = true := by
  have hinit : resolveStep [] cwd = [cwd] := by
    unfold resolveStep
    rw [hcwd]
    simp
  have hparts : ∃ b, (resolveParts cwd args).head? = some b
      ∧ strStartsWith b "/" = true := by
    unfold resolveParts
    rw [List.foldl_cons, hinit]
    exact foldl_resolveStep_head args [cwd] cwd rfl hcwd
  rcases hparts with ⟨b, hb, habs⟩
  unfold posixResolve
  simp only [hb, habs, Bool.not_true, if_pos]
  exact strStartsWith_append "/" _

/-- Collection with an absolute middle argument forgets everything before
it. -/
theorem resolveParts_abs_mid (cwd a f r : String)
    (hf : strStartsWith f "/" = true) :
    resolveParts cwd [a, f, r]
      = if strStartsWith r "/" = true then [r] else [f, r] := by
  unfold resolveParts
  simp only [List.foldl_cons, List.foldl_nil]
  have h0 : resolveStep [] cwd = [cwd] := by
    unfold resolveStep
    split <;> simp
  rw [h0]
  have h2 : ∀ acc, resolveStep acc f = [f] := by
    intro acc
    unfold resolveStep
    rw [hf]
    simp
  rw [h2]
  unfold resolveStep
  split <;> simp_all

/-- Resolution is independent of arguments before an absolute one. -/
theorem posixResolve_indep (cwd f r : String) (hf : strStartsWith f "/" = true)
    (a b : String) :
    posixResolve cwd [a, f, r] = posixResolve cwd [b, f, r] := by
  unfold posixResolve
  rw [resolveParts_abs_mid cwd a f r hf, resolveParts_abs_mid cwd b f r hf]

/-- Collection of an absolute root followed by two relative parts. -/
theorem resolveParts_rel (cwd san f r : String)
    (hsan : strStartsWith san "/" = true)
    (hf : strStartsWith f "/" = false) (hr : strStartsWith r "/" = false) :
    resolveParts cwd [san, f, r] = [san, f, r] := by
  unfold resolveParts
  simp only [List.foldl_cons, List.foldl_nil]
  have h0 : resolveStep [] cwd = [cwd] := by
    unfold resolveStep
    split <;> simp
  have h1 : resolveStep [cwd] san = [san] := by
    unfold resolveStep
    rw [hsan]
    simp
  have h2 : resolveStep [san] f = [san, f] := by
    unfold resolveStep
    rw [hf]
    simp
  have h3 : resolveStep [san, f] r = [san, f, r] := by
    unfold resolveStep
    rw [hr]
    simp
  rw [h0, h1, h2, h3]

/-- Resolution of an absolute root and two relative parts, unfolded to the
normalization of the concatenated fields. -/
theorem posixResolve_result (cwd san f r : String)
    (hsan : strStartsWith san "/" = true)
    (hf : strStartsWith f "/" = false) (hr : strStartsWith r "/" = false) :
    posixResolve cwd [san, f, r]
      = "/" ++ joinSegs (normSegs false []
          (splitSegs san ++ (splitSegs f ++ (splitSegs r ++ [])))) := by
  unfold posixResolve
  rw [resolveParts_rel cwd san f r hsan hf hr]
  simp only [List.head?_cons, hsan, List.flatMap_cons, List.flatMap_nil,
    Bool.not_true, if_pos]

/-- Negation of a pattern, read off the leading marker. -/
theorem isNegated_iff (p : String) :
    (positivePattern p ≠ p) ↔ strStartsWith p "!" = true := by
  rcases p with ⟨d⟩
  cases d with
  | nil => simp [positivePattern, strStartsWith, List.isPrefixOf]
  | cons c cs =>
    by_cases hc : c = '!'
    · subst hc
      constructor
      · intro _
        show List.isPrefixOf ['!'] ('!' :: cs) = true
        simp [List.isPrefixOf]
      · intro _
        have hhead : (String.mk ('!' :: cs)).data.head? = some '!' := rfl
        simp only [positivePattern, hhead, if_pos]
        intro hcon
        have := congrArg (fun s => s.data.length) hcon
        simp at this
    · constructor
      · intro hcon
        exfalso
        apply hcon
        simp only [positivePattern, List.head?_cons, Option.some.injEq]
        rw [if_neg hc]
      · intro habs
        exfalso
        have : List.isPrefixOf ['!'] (c :: cs) = true := habs
        simp only [List.isPrefixOf, Bool.and_eq_true, beq_iff_eq] at this
        exact hc this.1.symm

/-- A slash-free string is a single field. -/
theorem splitSegs_no_slash {s : String} (h : strContains s '/' = false) :
    splitSegs s = [s] := by
  unfold splitSegs
  unfold strContains at h
  rw [splitOnSlash_no_slash h]
  simp

/-- A nonempty string differs from the empty string at the data level. -/
theorem data_ne_nil_of_ne_empty {s : String} (h : ¬ s = "") : s.data ≠ [] := by
  intro h0
  apply h
  rcases s with ⟨d⟩
  simp only at h0
  rw [h0]

/-- Starting with `/` implies containing `/`. -/
theorem strContains_of_startsWith_slash {s : String}
    (h : strStartsWith s "/" = true) : strContains s '/' = true := by
  have hh := (strStartsWith_slash_iff s).mp h
  unfold strContains
  cases hd : s.data with
  | nil => rw [hd] at hh; simp at hh
  | cons c cs =>
    rw [hd] at hh
    simp only [List.head?_cons, Option.some.injEq] at hh
    rw [hh]
    simp [List.contains_cons]

/-- Destructure a clean absolute root. -/
theorem cleanRootAbs_spec {san : String} (h : cleanRootAbs san = true) :
    ∃ R, splitSegs san = "" :: R ∧ R ≠ []
      ∧ (∀ s ∈ R, ¬ s = "" ∧ ¬ s = "." ∧ ¬ s = "..") := by
  unfold cleanRootAbs at h
  rcases hsan : splitSegs san with _ | ⟨s0, R⟩
  · rw [hsan] at h
    simp at h
  · rw [hsan] at h
    simp only [Bool.and_eq_true, beq_iff_eq, Bool.not_eq_true',
      List.all_eq_true] at h
    obtain ⟨⟨hs0, hRne⟩, hall⟩ := h
    subst hs0
    refine ⟨R, rfl, ?_, ?_⟩
    · intro h0
      rw [h0] at hRne
      simp at hRne
    · intro s hs
      have := hall s hs
      unfold goodSeg at this
      simp only [Bool.and_eq_true, Bool.not_eq_true', beq_eq_false_iff_ne,
        ne_eq] at this
      exact ⟨this.1.1, this.1.2, this.2⟩

/-- A clean root starts with `/`. -/
theorem startsWith_slash_of_clean {san : String} {R : List String}
    (h : splitSegs san = "" :: R) (hR : R ≠ []) :
    strStartsWith san "/" = true := by
  cases hd : san.data with
  | nil =>
    exfalso
    have hsplit : splitSegs san = [""] := by
      unfold splitSegs
      rw [hd]
      rfl
    rw [hsplit] at h
    have : R = [] := (List.cons.injEq _ _ _ _ ▸ h).2.symm
    exact hR this
  | cons c cs =>
    by_cases hc : c = '/'
    · rw [strStartsWith_slash_iff, hd, hc]
      rfl
    · exfalso
      unfold splitSegs at h
      rw [hd] at h
      rcases hsp : splitOnSlash cs with _ | ⟨t, ts⟩
      · exact absurd hsp (splitOnSlash_ne_nil cs)
      · simp only [splitOnSlash, hc, if_false, hsp, List.map_cons] at h
        have hhead : (⟨c :: t⟩ : String) = "" := (List.cons.injEq _ _ _ _ ▸ h).1
        have : c :: t = ([] : List Char) := congrArg String.data hhead
        simp at this

/-- A clean root is the slash-join of its proper segments. -/
theorem clean_root_eq {san : String} {R : List String}
    (h : splitSegs san = "" :: R) (hR : R ≠ []) :
    san = "/" ++ joinSegs R := by
  have h1 : san = joinSegs ("" :: R) := by
    rw [← h, joinSegs_splitSegs]
  cases R with
  | nil => exact absurd rfl hR
  | cons r rs =>
    rw [h1]
    have h2 : joinSegs ("" :: r :: rs) = "" ++ "/" ++ joinSegs (r :: rs) := by
      simp [joinSegs]
    rw [h2, empty_append "/"]

/-- The resolution of a clean absolute root against escape-free relative
segments stays at or beneath the root. -/
theorem rooted_beneath (cwd san f : String) (rest : List String)
    (hclean : cleanRootAbs san = true)
    (hffree : strContains f '/' = false)
    (hrestfree : ∀ s ∈ rest, strContains s '/' = false)
    (hrestne : rest ≠ [])
    (hgood : ∀ s ∈ f :: rest, ¬ s = "" ∧ ¬ s = "..") :
    posixResolve cwd [san, f, joinSegs rest] = san
    ∨ strStartsWith (posixResolve cwd [san, f, joinSegs rest]) (san ++ "/")
        = true := by
  rcases cleanRootAbs_spec hclean with ⟨R, hsan, hRne, hRgood⟩
  have hsanAbs : strStartsWith san "/" = true := startsWith_slash_of_clean hsan hRne
  have hfne : ¬ f = "" := (hgood f (List.mem_cons_self f rest)).1
  have hf : strStartsWith f "/" = false :=
    not_startsWith_slash_of_no_slash hffree (data_ne_nil_of_ne_empty hfne)
  have hr : strStartsWith (joinSegs rest) "/" = false := by
    rcases rest with _ | ⟨r₁, rs⟩
    · exact absurd rfl hrestne
    · rcases hcase : strStartsWith (joinSegs (r₁ :: rs)) "/" with _ | _
      · rfl
      · exfalso
        have hh := (strStartsWith_slash_iff _).mp hcase
        have hr₁ne : ¬ r₁ = "" := (hgood r₁ (List.mem_cons_of_mem f (List.mem_cons_self r₁ rs))).1
        rw [joinSegs_head (data_ne_nil_of_ne_empty hr₁ne) rs] at hh
        have hr₁free : strContains r₁ '/' = false :=
          hrestfree r₁ (List.mem_cons_self r₁ rs)
        cases hd : r₁.data with
        | nil => exact data_ne_nil_of_ne_empty hr₁ne hd
        | cons c cs =>
          rw [hd] at hh
          simp only [List.head?_cons, Option.some.injEq] at hh
          unfold strContains at hr₁free
          rw [hd, hh] at hr₁free
          simp [List.contains_cons] at hr₁free
  rw [posixResolve_result cwd san f (joinSegs rest) hsanAbs hf hr]
  have hsplitf : splitSegs f = [f] := splitSegs_no_slash hffree
  have hsplitr : splitSegs (joinSegs rest) = rest :=
    splitSegs_joinSegs rest hrestne hrestfree
  rw [hsan, hsplitf, hsplitr, List.append_nil]
  have hlist : ("" :: R) ++ ([f] ++ rest) = "" :: (R ++ (f :: rest)) := by
    simp
  rw [hlist]
  have hdrop : normSegs false [] ("" :: (R ++ (f :: rest)))
      = normSegs false [] (R ++ (f :: rest)) := by
    simp [normSegs]
  rw [hdrop]
  have hallgood : ∀ s ∈ R ++ (f :: rest), ¬ s = "" ∧ ¬ s = ".." := by
    intro s hs
    rcases List.mem_append.mp hs with hs | hs
    · exact ⟨(hRgood s hs).1, (hRgood s hs).2.2⟩
    · exact hgood s hs
  rw [normSegs_good (R ++ (f :: rest)) [] hallgood]
  rw [List.filter_append]
  have hRfilter : R.filter (fun s => !(s == ".")) = R := by
    apply List.filter_eq_self.mpr
    intro s hs
    simp only [Bool.not_eq_true', beq_eq_false_iff_ne, ne_eq]
    exact (hRgood s hs).2.1
  rw [hRfilter]
  simp only [List.reverse_nil, List.nil_append]
  rcases hF : (f :: rest).filter (fun s => !(s == ".")) with _ | ⟨g, gs⟩
  · left
    rw [List.append_nil]
    exact (clean_root_eq hsan hRne).symm
  · right
    have hq : "/" ++ joinSegs (R ++ (g :: gs))
        = (san ++ "/") ++ joinSegs (g :: gs) := by
      rw [joinSegs_append R (g :: gs) hRne (by simp), clean_root_eq hsan hRne]
      simp [String.append_assoc]
    rw [hq]
    exact strStartsWith_append _ _

/-- The rooting map on a single pattern, fully unfolded. -/
theorem addPathToPatterns_single (cwd rootPath p : String) :
    addPathToPatterns cwd rootPath [p]
      = [if (splitSegs (positivePattern p)).length > 1 then
           (if positivePattern p ≠ p then "!" else "")
             ++ posixResolve cwd [sanitisePath rootPath,
                  (if (splitSegs (positivePattern p)).head? = some ""
                   then "/" ++ (((splitSegs (positivePattern p)).drop 1).headD "")
                   else (splitSegs (positivePattern p)).headD ""),
                  joinSegs ((splitSegs (positivePattern p)).drop
                    (if (splitSegs (positivePattern p)).head? = some "" then 2 else 1))]
         else p] := rfl

/-- The negation marker of the rewritten pattern, in leading-marker form. -/
theorem negMarker_eq (p : String) :
    (if positivePattern p ≠ p then "!" else "")
      = (if strStartsWith p "!" = true then "!" else "") := by
  by_cases hn : strStartsWith p "!" = true
  · rw [if_pos hn, if_pos ((isNegated_iff p).mpr hn)]
  · rw [if_neg hn, if_neg (fun hx => hn ((isNegated_iff p).mp hx))]

/-- C7 counterexample: a relative multi-segment pattern with a
parent-directory segment is rooted outside the scan root — `../x.js`
against root `/root` resolves to `/x.js`, which does not lie beneath
`/root`. -/
theorem addPathToPatterns_parent_escape :
    addPathToPatterns "/cwd" "/root" ["../x.js"] = ["/x.js"]
      ∧ strStartsWith "/x.js" "/root" = false
      ∧ strContains (positivePattern "../x.js") '/' = true
      ∧ strStartsWith (positivePattern "../x.js") "/" = false := by
  decide

/-- C7 amended: rooting leaves single-segment patterns untouched; a
multi-segment pattern is rewritten into an absolute path with its negation
marker preserved; a pattern with the absolute marker stays rooted at the
filesystem root, independent of the scan root; and a relative
multi-segment pattern whose positive form has no empty and no
parent-directory segment resolves at or beneath a clean sanitised root
(with parent-directory segments the result may escape the root). -/
theorem addPathToPatterns_rooting (cwd rootPath p : String) :
    (strContains (positivePattern p) '/' = false →
      addPathToPatterns cwd rootPath [p] = [p])
    ∧ (strContains (positivePattern p) '/' = true →
        strStartsWith cwd "/" = true →
        ∃ q, addPathToPatterns cwd rootPath [p]
            = [(if strStartsWith p "!" = true then "!" else "") ++ q]
          ∧ strStartsWith q "/" = true)
    ∧ (strStartsWith (positivePattern p) "/" = true →
        ∀ r₁ r₂, addPathToPatterns cwd r₁ [p] = addPathToPatterns cwd r₂ [p])
    ∧ (strContains (positivePattern p) '/' = true →
        strStartsWith (positivePattern p) "/" = false →
        cleanRootAbs (sanitisePath rootPath) = true →
        noEscapeSegs (positivePattern p) = true →
        ∃ q, addPathToPatterns cwd rootPath [p]
            = [(if strStartsWith p "!" = true then "!" else "") ++ q]
          ∧ (q = sanitisePath rootPath
             ∨ strStartsWith q (sanitisePath rootPath ++ "/") = true)) := by
  refine ⟨?_, ?_, ?_, ?_⟩
  · intro h
    rw [addPathToPatterns_single]
    rw [splitSegs_no_slash h]
    simp
  · intro h hcwd
    have hlen : 1 < (splitSegs (positivePattern p)).length := splitSegs_length_gt_one h
    rw [addPathToPatterns_single, if_pos hlen, negMarker_eq]
    exact ⟨_, rfl, posixResolve_abs_of_cwd cwd _ hcwd⟩
  · intro habs r₁ r₂
    have h : strContains (positivePattern p) '/' = true :=
      strContains_of_startsWith_slash habs
    have hlen : 1 < (splitSegs (positivePattern p)).length := splitSegs_length_gt_one h
    have hhead : (splitSegs (positivePattern p)).head? = some "" :=
      splitSegs_head_of_slash habs
    rw [addPathToPatterns_single, addPathToPatterns_single, if_pos hlen,
      if_pos hlen, if_pos hhead, if_pos hhead]
    have hindep := posixResolve_indep cwd
      ("/" ++ (((splitSegs (positivePattern p)).drop 1).headD ""))
      (joinSegs ((splitSegs (positivePattern p)).drop 2))
      (strStartsWith_append "/" _) (sanitisePath r₁) (sanitisePath r₂)
    rw [hindep]
  · intro h hrel hclean hgood
    have hlen : 1 < (splitSegs (positivePattern p)).length := splitSegs_length_gt_one h
    have hne : (positivePattern p).data ≠ [] := by
      intro h0
      unfold strContains at h
      rw [h0] at h
      simp at h
    have hhead : ¬ (splitSegs (positivePattern p)).head? = some "" :=
      splitSegs_head_ne_empty hne hrel
    rw [addPathToPatterns_single, if_pos hlen, if_neg hhead, if_neg hhead,
      negMarker_eq]
    rcases hsegs : splitSegs (positivePattern p) with _ | ⟨f, rest⟩
    · rw [hsegs] at hlen
      simp at hlen
    · have hrestne : rest ≠ [] := by
        intro h0
        rw [hsegs, h0] at hlen
        simp at hlen
      have hgood' : ∀ s ∈ f :: rest, ¬ s = "" ∧ ¬ s = ".." := by
        intro s hs
        unfold noEscapeSegs at hgood
        rw [hsegs] at hgood
        have := List.all_eq_true.mp hgood s hs
        simp only [Bool.and_eq_true, Bool.not_eq_true', beq_eq_false_iff_ne,
          ne_eq] at this
        exact this
      have hffree : strContains f '/' = false :=
        mem_splitSegs_no_slash (hsegs ▸ List.mem_cons_self f rest)
      have hrestfree : ∀ s ∈ rest, strContains s '/' = false := fun s hs =>
        mem_splitSegs_no_slash (hsegs ▸ List.mem_cons_of_mem f hs)
      simp only [List.headD_cons, List.drop_succ_cons, List.drop_zero]
      refine ⟨_, rfl, ?_⟩
      exact rooted_beneath cwd (sanitisePath rootPath) f rest hclean hffree
        hrestfree hrestne hgood'

/-- C7 witness: a concrete relative pattern rooted beneath `/root`. -/
theorem addPathToPatterns_rooting_witness :
    ∃ q, addPathToPatterns "/" "/root" ["./a/b.js"]
        = [(if strStartsWith "./a/b.js" "!" = true then "!" else "") ++ q]
      ∧ (q = sanitisePath "/root"
         ∨ strStartsWith q (sanitisePath "/root" ++ "/") = true) :=
  (addPathToPatterns_rooting "/" "/root" "./a/b.js").2.2.2 (by decide) (by decide)
    (by decide) (by decide)

end GpiiGlob
